import Mathlib

/-!
Shallow embedding of the `ws-hotel` room runtime (`src/lib.rs`): membership
tables, broadcast, swap-removal, the relocation loop run by the per-connection
adapter, and the reachable-state protocol, together with theorems checking the
specification's claims against these definitions.
-/

namespace WsHotel

/-- A `ws::Sender` handle.  The spec fixes that a sender is uniquely identified by
its stable `(token, connection_id)` pair and that equality is by this pair, which
is how the source compares senders (`s == sender`, `(s.token(), s.connection_id())`). -/
structure Sender where
  token : Nat
  connId : Nat
deriving DecidableEq

/-- The per-member identity payload (`R::Guest`), abstracted to `Nat`; the claims
under study never inspect its contents. -/
abbrev Guest := Nat

/-- One membership-table entry `(R::Guest, Sender)` of `Room.members` (line 128). -/
abbrev Entry := Guest × Sender

/-- A transport error raised by `Sender::send`, abstracted to `Nat`. -/
abbrev Err := Nat

/-- A message, abstracted to `Nat`; broadcast clones the same message to everyone. -/
abbrev Msg := Nat

/-- `Vec::swap_remove(i)`: overwrite index `i` with the last element, then pop the
last element (line 275).  On the empty list there is nothing to remove. -/
def swapRemove (l : List α) (i : Nat) : List α :=
  match l.getLast? with
  | none => []
  | some z => (l.set i z).dropLast

/-- `<Mutex<Room<R>> as RoomAny>::add` (lines 261–264) after the successful
downcast: push `(identity, sender)` at the end of the membership table. -/
def Room.add (members : List Entry) (g : Guest) (s : Sender) : List Entry :=
  members ++ [(g, s)]

/-- `Iterator::position`: the index of the first element satisfying the predicate,
as used by `RoomAny::remove` (lines 269–272). -/
def position (p : α → Bool) : List α → Option Nat
  | [] => none
  | a :: l => if p a then some 0 else (position p l).map (· + 1)

/-- `<Mutex<Room<R>> as RoomAny>::remove` (lines 266–276): find the position of the
first entry whose sender equals the given one and `swap_remove` it.  `none` models
the `expect("attempted to remove member, but it wasn't here")` panic. -/
def Room.remove (members : List Entry) (s : Sender) : Option (List Entry) :=
  (position (fun e => e.2 == s) members).map (swapRemove members)

/-- The iterator pipeline `.iter().map(|(_, sender)| sender.send(msg.clone())).collect()`
shared by `RoomAny::broadcast` (lines 252–259) and `Context::broadcast` (lines 316–323):
send the message to each sender in order, short-circuiting at the first failure.
`sendRes s m` is the outcome of `s.send(m)` (`none` = success).  Returns the senders
on which `send` was actually invoked, in order, together with the first error if any. -/
def sendAll (sendRes : Sender → Msg → Option Err) (m : Msg) :
    List Sender → List Sender × Option Err
  | [] => ([], none)
  | s :: rest =>
    match sendRes s m with
    | some e => ([s], some e)
    | none =>
      let r := sendAll sendRes m rest
      (s :: r.1, r.2)

/-- `<Mutex<Room<R>> as RoomAny>::broadcast` (lines 252–259): iterate the room's
current membership table. -/
def Room.broadcast (sendRes : Sender → Msg → Option Err) (m : Msg)
    (members : List Entry) : List Sender × Option Err :=
  sendAll sendRes m (members.map Prod.snd)

/-- `Context::broadcast` (lines 316–323): iterate the sender snapshot captured by
`with_context` (lines 138–142), which lists the same senders in the same order as
the membership table. -/
def Context.broadcast (sendRes : Sender → Msg → Option Err) (m : Msg)
    (snapshot : List Sender) : List Sender × Option Err :=
  sendAll sendRes m snapshot

/-- The pool of live rooms, indexed by an abstract room id.  Every id denotes a
room cell, mirroring that every `Arc<Mutex<Room>>` reference held anywhere in the
process is valid. -/
abbrev Rooms := Nat → List Entry

/-- Point update of one room cell of the pool. -/
def setRoom (rooms : Rooms) (i : Nat) (l : List Entry) : Rooms :=
  fun j => if j = i then l else rooms j

/-- `RoomAny::add` applied to room `i` of the pool. -/
def poolAdd (rooms : Rooms) (i : Nat) (g : Guest) (s : Sender) : Rooms :=
  setRoom rooms i (Room.add (rooms i) g s)

/-- `RoomAny::remove` applied to room `i` of the pool; `none` models the panic. -/
def poolRemove (rooms : Rooms) (i : Nat) (s : Sender) : Option Rooms :=
  (Room.remove (rooms i) s).map (setRoom rooms i)

/-- The lobby: the default room the listener splices fresh connections into. -/
def lobbyId : Nat := 0

/-- Global protocol state: every room's membership table plus, for each live
connection adapter, its sender and current room (`Handler.sender`, `Handler.room`). -/
structure ProtoState where
  rooms : Rooms
  conns : List (Sender × Nat)

/-- A relocation repoints the sender's adapter at the destination room
(`self.room = room`, line 372). -/
def replaceConn (conns : List (Sender × Nat)) (s : Sender) (rid : Nat) :
    List (Sender × Nat) :=
  conns.map fun p => if p.1 = s then (s, rid) else p

/-- A disconnect destroys the sender's adapter. -/
def removeConn (conns : List (Sender × Nat)) (s : Sender) : List (Sender × Nat) :=
  conns.filter fun p => p.1 != s

/-- The membership protocol of the runtime: a fresh connection is inserted into
the lobby with the default guest (`listen`, lines 480–489), a relocation removes
the sender from its current room and inserts it into the destination room
(`Handler::relocate`, lines 366–379, one loop iteration), and a disconnect
removes it from its current room (`Handler::on_close`, lines 395–398).  A step
whose removal would panic has no successor state: the process aborts. -/
inductive Reachable : ProtoState → Prop
  | init : Reachable ⟨fun _ => [], []⟩
  | connect {st : ProtoState} (s : Sender) (g : Guest)
      (h : Reachable st) (hfresh : ∀ p ∈ st.conns, p.1 ≠ s) :
      Reachable ⟨poolAdd st.rooms lobbyId g s, (s, lobbyId) :: st.conns⟩
  | relocate {st : ProtoState} {rooms1 : Rooms} (s : Sender) (rid dest : Nat) (g : Guest)
      (h : Reachable st) (hconn : (s, rid) ∈ st.conns)
      (hrm : poolRemove st.rooms rid s = some rooms1) :
      Reachable ⟨poolAdd rooms1 dest g s, replaceConn st.conns s dest⟩
  | disconnect {st : ProtoState} {rooms1 : Rooms} (s : Sender) (rid : Nat)
      (h : Reachable st) (hconn : (s, rid) ∈ st.conns)
      (hrm : poolRemove st.rooms rid s = some rooms1) :
      Reachable ⟨rooms1, removeConn st.conns s⟩

/-- Number of entries of room `j` whose sender is `s`. -/
def senderCount (rooms : Rooms) (j : Nat) (s : Sender) : Nat :=
  ((rooms j).map Prod.snd).count s

/-- The membership invariant: adapter keys are distinct, every adapter's sender
has exactly one entry in its current room and none anywhere else, and a sender
with no adapter is in no room. -/
def Inv (st : ProtoState) : Prop :=
  (st.conns.map Prod.fst).Nodup ∧
  (∀ p ∈ st.conns, senderCount st.rooms p.2 p.1 = 1 ∧
    ∀ j, j ≠ p.2 → senderCount st.rooms j p.1 = 0) ∧
  (∀ s : Sender, (∀ p ∈ st.conns, p.1 ≠ s) → ∀ j, senderCount st.rooms j s = 0)

/-- Observable events of the connection adapter: callback firings and membership
operations, tagged with the affected room.  A `leave` carries the optional
`(close code, reason)` pair passed to `on_leave` (both abstracted to `Nat`). -/
inductive Ev where
  | leave (rid : Nat) (reason : Option (Nat × Nat))
  | removeEv (rid : Nat)
  | addEv (rid : Nat)
  | joinEv (rid : Nat)
deriving DecidableEq

/-- A `Relocation` (line 207): a reference to the destination room plus the new
identity for the mover.  The typed/erased distinction is modelled separately for
the downcast claim; here the downcast is already known to succeed. -/
structure Relocation where
  room : Nat
  identity : Guest
deriving DecidableEq

/-- How a run of the relocation loop ended: normally with a current room, with an
error from the destination's `on_join` (carrying the room the member was left in),
with a panic of `remove`, or artificially because the modelling fuel ran out. -/
inductive Outcome where
  | ok (cur : Nat)
  | err (e : Err) (cur : Nat)
  | panicked
  | fuelOut
deriving DecidableEq

/-- `Handler::relocate` (lines 366–379): while a relocation is pending, fire the
current room's `on_leave` with no reason, remove the sender from the current room,
repoint the adapter at the destination, insert the sender there, and fire the
destination's `on_join`, whose result becomes the next pending relocation.
`onJoin k rid` is the result of the `k`-th `on_join` call, fired in room `rid`
(callbacks may mutate the caller's identity but cannot alter membership, so
member lists of senders are unaffected by them); `fuel` bounds the modelled
number of iterations of the source's unbounded `while` loop.  Returns the event
trace, the final room pool and the outcome. -/
def Handler.relocate (onJoin : Nat → Nat → Except Err (Option Relocation)) (s : Sender) :
    Nat → Nat → Rooms → Nat → Option Relocation → List Ev × Rooms × Outcome
  | _, _, rooms, cur, none => ([], rooms, Outcome.ok cur)
  | 0, _, rooms, _, some _ => ([], rooms, Outcome.fuelOut)
  | fuel + 1, k, rooms, cur, some r =>
    match poolRemove rooms cur s with
    | none => ([Ev.leave cur none], rooms, Outcome.panicked)
    | some rooms1 =>
      let rooms2 := poolAdd rooms1 r.room r.identity s
      let blk := [Ev.leave cur none, Ev.removeEv cur, Ev.addEv r.room, Ev.joinEv r.room]
      match onJoin k r.room with
      | Except.error e => (blk, rooms2, Outcome.err e r.room)
      | Except.ok r' =>
        let rest := Handler.relocate onJoin s fuel (k + 1) rooms2 r.room r'
        (blk ++ rest.1, rest.2.1, rest.2.2)

/-- The four events one applied relocation produces, in the source's order. -/
def relocBlock (cur dest : Nat) : List Ev :=
  [Ev.leave cur none, Ev.removeEv cur, Ev.addEv dest, Ev.joinEv dest]

/-- The event trace of a chain of relocations visiting the given rooms in order. -/
def relocBlocks : Nat → List Nat → List Ev
  | _, [] => []
  | cur, d :: ds => relocBlock cur d ++ relocBlocks d ds

/-- Modelled from the spec: the external WebSocket server (the `ws` crate, outside
this repository) ceases dispatching frames to a connection whose handler callback
returned an error; `Handler::on_message` (lines 389–393) forwards the relocation
loop's error to it unchanged. -/
def ceasesDispatch : Outcome → Bool
  | Outcome.err _ _ => true
  | _ => false

/-- `Context::identity` used mutably (lines 295–306): replace the identity of the
first entry whose sender is the caller, leaving every other entry and all senders
unchanged.  This is the only way a handler callback can touch the membership
table. -/
def mutateIdentity : List Entry → Sender → (Guest → Guest) → List Entry
  | [], _, _ => []
  | e :: rest, s, f =>
    if e.2 = s then (f e.1, e.2) :: rest else e :: mutateIdentity rest s f

/-- `<Handler as ws::Handler>::on_close` (lines 395–398): fire the current room's
`on_leave` with `Some((code, reason))`, then remove the sender from the current
room.  `on_leave` returns `()` in the source — it has no error channel — and may
only mutate the caller's identity, modelled by `leaveUpd`. -/
def Handler.onClose (leaveUpd : Guest → Guest) (rooms : Rooms) (cur : Nat)
    (s : Sender) (code reasonStr : Nat) : List Ev × Option Rooms :=
  let roomsL := setRoom rooms cur (mutateIdentity (rooms cur) s leaveUpd)
  ([Ev.leave cur (some (code, reasonStr)), Ev.removeEv cur], poolRemove roomsL cur s)

/-- A runtime type tag standing for the `TypeId` of a `Box<dyn Any>` payload. -/
abbrev TypeTag := Nat

/-- A type-erased boxed guest value (`Box<dyn Any>`): its runtime type tag plus
the payload. -/
structure Erased where
  tag : TypeTag
  val : Guest
deriving DecidableEq

/-- `identity.downcast::<R::Guest>()` (line 262): succeeds iff the box's runtime
type matches the room's guest type. -/
def downcastGuest (roomTag : TypeTag) (b : Erased) : Option Guest :=
  if b.tag = roomTag then some b.val else none

/-- `<Mutex<Room<R>> as RoomAny>::add` (lines 261–264) with the erased identity:
`none` models the `unwrap` abort on a failed downcast. -/
def RoomAny.add (roomTag : TypeTag) (members : List Entry) (s : Sender)
    (b : Erased) : Option (List Entry) :=
  (downcastGuest roomTag b).map fun g => Room.add members g s

/-- A type-erased `Relocation` (lines 207–218): the destination room (represented
by its guest type tag) plus the boxed identity. -/
structure RelocationE where
  roomTag : TypeTag
  box : Erased

/-- `Relocation::new` (lines 210–217): the only constructor, taking a typed
`(RoomRef<R>, R::Guest)` pair, so the erased box necessarily carries the
destination room's guest type. -/
def RelocationE.new (roomTag : TypeTag) (g : Guest) : RelocationE :=
  ⟨roomTag, ⟨roomTag, g⟩⟩

/-- `Context::identity` (lines 295–306): look up the caller's entry by its
`(token, connection_id)` pair; `none` models the `expect("guest not in room")`
abort. -/
def Context.identity (members : List Entry) (me : Sender) : Option Guest :=
  (members.find? fun e => e.2 == me).map Prod.fst

/-- The per-connection adapter `struct Handler` (lines 360–363): the sender
handle plus the current room. -/
structure HandlerA where
  sender : Sender
  room : Nat
deriving DecidableEq

/-- The per-connection setup performed inside `ws::listen`'s closure (`listen`,
lines 480–489): add the fresh sender to the lobby with the default guest value,
then construct the adapter, whose current room is the lobby.  The only event is
the membership insertion: no `on_join` is fired for the initial lobby entry. -/
def acceptConnection (rooms : Rooms) (s : Sender) : List Ev × Rooms × HandlerA :=
  ([Ev.addEv lobbyId], poolAdd rooms lobbyId default s, ⟨s, lobbyId⟩)

/-- Modelled from the spec: the strong-count state of the `Arc` allocations that
hold room cells.  `std::sync::{Arc, Weak}` are outside this repository; the spec
assumes their documented semantics: upgrading a weak reference succeeds iff at
least one strong reference to the same cell survives. -/
structure ArcHeap where
  strongCount : Nat → Nat

/-- `RoomRefWeak::upgrade` (lines 81–85), `self.0.upgrade().map(RoomRef)`, over
the modelled heap: a weak reference is the id of the cell it points to, and the
upgrade yields a strong reference to that same cell iff the cell is still alive. -/
def RoomRefWeak.upgrade (h : ArcHeap) (cell : Nat) : Option Nat :=
  if 0 < h.strongCount cell then some cell else none

/-- `impl PartialEq for RoomRef` (lines 52–56): `Arc::ptr_eq`, equality of the
underlying cell. -/
def RoomRef.ptrEq (a b : Nat) : Bool :=
  a == b

/-! Helper lemmas about `position`, `swapRemove`, `Room.remove` and `sendAll`. -/

theorem position_eq_none_iff {p : α → Bool} {l : List α} :
    position p l = none ↔ ∀ a ∈ l, p a = false := by
  induction l with
  | nil => simp [position]
  | cons a t ih =>
    by_cases h : p a
    · simp [position, h]
    · simp [position, h, ih]

theorem position_lt_length {p : α → Bool} {l : List α} {i : Nat}
    (h : position p l = some i) : i < l.length := by
  induction l generalizing i with
  | nil => simp [position] at h
  | cons a t ih =>
    by_cases hp : p a
    · simp [position, hp] at h
      simp [← h]
    · simp [position, hp] at h
      obtain ⟨j, hj, hji⟩ := h
      have := ih hj
      simp only [List.length_cons]
      omega

theorem position_map {f : α → β} {p : β → Bool} (l : List α) :
    position p (l.map f) = position (fun a => p (f a)) l := by
  induction l with
  | nil => rfl
  | cons a t ih => by_cases h : p (f a) <;> simp [position, h, ih]

theorem map_eraseIdx (f : α → β) (l : List α) (i : Nat) :
    (l.eraseIdx i).map f = (l.map f).eraseIdx i := by
  induction l generalizing i with
  | nil => simp
  | cons a t ih => cases i <;> simp [ih]

theorem swapRemove_cons_succ (a : α) {l : List α} (i : Nat) (h : l ≠ []) :
    swapRemove (a :: l) (i + 1) = a :: swapRemove l i := by
  cases l with
  | nil => exact absurd rfl h
  | cons b t =>
    have hne : b :: t ≠ [] := List.cons_ne_nil _ _
    have hg : (b :: t).getLast? = some ((b :: t).getLast hne) :=
      List.getLast?_eq_getLast _ hne
    have hg' : (a :: b :: t).getLast? = some ((b :: t).getLast hne) := by
      rw [List.getLast?_cons_cons, hg]
    simp only [swapRemove, hg, hg']
    have hset : (a :: b :: t).set (i + 1) ((b :: t).getLast hne) =
        a :: (b :: t).set i ((b :: t).getLast hne) := rfl
    have hsne : (b :: t).set i ((b :: t).getLast hne) ≠ [] := by
      intro hc
      have := List.length_set (b :: t) i ((b :: t).getLast hne)
      rw [hc] at this
      simp at this
    rw [hset, List.dropLast_cons_of_ne_nil hsne]

theorem swapRemove_zero_perm (a : α) (l : List α) :
    List.Perm (swapRemove (a :: l) 0) l := by
  cases l with
  | nil => simp [swapRemove]
  | cons b t =>
    have hne : b :: t ≠ [] := List.cons_ne_nil _ _
    have hg' : (a :: b :: t).getLast? = some ((b :: t).getLast hne) := by
      rw [List.getLast?_cons_cons]
      exact List.getLast?_eq_getLast _ hne
    simp only [swapRemove, hg']
    have hset : (a :: b :: t).set 0 ((b :: t).getLast hne) =
        (b :: t).getLast hne :: b :: t := rfl
    rw [hset, List.dropLast_cons_of_ne_nil hne]
    have h1 : (b :: t).dropLast ++ [(b :: t).getLast hne] = b :: t :=
      List.dropLast_append_getLast hne
    have h2 := List.perm_append_singleton ((b :: t).getLast hne) ((b :: t).dropLast)
    rw [h1] at h2
    exact h2.symm

theorem swapRemove_perm_eraseIdx {l : List α} {i : Nat} (h : i < l.length) :
    List.Perm (swapRemove l i) (l.eraseIdx i) := by
  induction l generalizing i with
  | nil => simp at h
  | cons a t ih =>
    cases i with
    | zero => simpa using swapRemove_zero_perm a t
    | succ i =>
      have ht : t ≠ [] := by
        intro hc
        subst hc
        simp at h
      have hi : i < t.length := by simpa using h
      rw [swapRemove_cons_succ a i ht, List.eraseIdx_cons_succ]
      exact (ih hi).cons a

theorem remove_eq_some {members : List Entry} {s : Sender} {m : List Entry}
    (h : Room.remove members s = some m) :
    ∃ i, position (fun e => e.2 == s) members = some i ∧ m = swapRemove members i ∧
      List.Perm m (members.eraseIdx i) := by
  unfold Room.remove at h
  cases hp : position (fun e => e.2 == s) members with
  | none => rw [hp] at h; simp at h
  | some i =>
    rw [hp] at h
    simp only [Option.map_some', Option.some.injEq] at h
    exact ⟨i, rfl, h.symm, h ▸ swapRemove_perm_eraseIdx (position_lt_length hp)⟩

theorem eraseIdx_position_eq_erase [DecidableEq α] {l : List α} {s : α} {i : Nat}
    (h : position (fun t => t == s) l = some i) : l.eraseIdx i = l.erase s := by
  induction l generalizing i with
  | nil => simp [position] at h
  | cons a t ih =>
    by_cases hb : a = s
    · subst hb
      simp [position] at h
      simp [← h, List.erase_cons_head]
    · have hb' : (a == s) = false := by simpa using hb
      simp [position, hb'] at h
      obtain ⟨j, hj, hji⟩ := h
      rw [← hji, List.eraseIdx_cons_succ, List.erase_cons_tail (by simpa using hb), ih hj]

theorem remove_map_snd_perm {members : List Entry} {s : Sender} {m : List Entry}
    (h : Room.remove members s = some m) :
    List.Perm (m.map Prod.snd) ((members.map Prod.snd).erase s) := by
  obtain ⟨i, hp, hm, hperm⟩ := remove_eq_some h
  have h1 : List.Perm (m.map Prod.snd) ((members.eraseIdx i).map Prod.snd) :=
    hperm.map _
  have h2 : (members.eraseIdx i).map Prod.snd = (members.map Prod.snd).eraseIdx i :=
    map_eraseIdx _ _ _
  have h3 : position (fun t => t == s) (members.map Prod.snd) = some i := by
    rw [position_map]
    exact hp
  rw [h2, eraseIdx_position_eq_erase h3] at h1
  exact h1

theorem remove_eq_none_iff {members : List Entry} {s : Sender} :
    Room.remove members s = none ↔ ∀ e ∈ members, e.2 ≠ s := by
  unfold Room.remove
  rw [Option.map_eq_none', position_eq_none_iff]
  constructor
  · intro h e he
    have := h e he
    simpa using this
  · intro h e he
    simpa using h e he

theorem sendAll_ok {f : Sender → Msg → Option Err} {m : Msg} {ss : List Sender}
    (h : (sendAll f m ss).2 = none) : (sendAll f m ss).1 = ss := by
  induction ss with
  | nil => rfl
  | cons s rest ih =>
    cases hf : f s m with
    | some e => simp [sendAll, hf] at h
    | none =>
      simp only [sendAll, hf] at h ⊢
      rw [ih h]

theorem sendAll_break {f : Sender → Msg → Option Err} {m : Msg} (pre : List Sender)
    {post : List Sender} {x : Sender} {e : Err}
    (hpre : ∀ s ∈ pre, f s m = none) (hx : f x m = some e) :
    sendAll f m (pre ++ x :: post) = (pre ++ [x], some e) := by
  induction pre with
  | nil => simp [sendAll, hx]
  | cons s rest ih =>
    have hs : f s m = none := hpre s (by simp)
    have ih' := ih fun t ht => hpre t (by simp [ht])
    simp [sendAll, hs, ih']

/-! Theorems for the broadcast and removal claims. -/

/-- C2 (amended): a successful broadcast — both the room-level one and the
`Context` one, which iterate the same senders — invokes `send(m)` exactly once on
every sender currently in the room, including the caller, in the membership
table's current iteration order; because removal is a swap-removal, that order
coincides with insertion order only while no removal has reordered the table. -/
theorem broadcast_sends_once_in_table_order
    (f : Sender → Msg → Option Err) (m : Msg) (members : List Entry)
    (hnd : (members.map Prod.snd).Nodup)
    (hok : (Room.broadcast f m members).2 = none) :
    (Room.broadcast f m members).1 = members.map Prod.snd ∧
    Context.broadcast f m (members.map Prod.snd) = Room.broadcast f m members ∧
    ∀ s ∈ members.map Prod.snd, List.count s (Room.broadcast f m members).1 = 1 := by
  have h1 : (Room.broadcast f m members).1 = members.map Prod.snd := sendAll_ok hok
  refine ⟨h1, rfl, fun s hs => ?_⟩
  rw [h1]
  exact List.count_eq_one_of_mem hnd hs

theorem broadcast_sends_once_in_table_order_witness :
    (Room.broadcast (fun _ _ => none) 0 [(1, ⟨1, 1⟩), (2, ⟨2, 2⟩)]).1 =
        [⟨1, 1⟩, ⟨2, 2⟩] ∧
    Context.broadcast (fun _ _ => none) 0 [⟨1, 1⟩, ⟨2, 2⟩] =
        Room.broadcast (fun _ _ => none) 0 [(1, ⟨1, 1⟩), (2, ⟨2, 2⟩)] ∧
    ∀ s ∈ ([⟨1, 1⟩, ⟨2, 2⟩] : List Sender),
      List.count s (Room.broadcast (fun _ _ => none) 0 [(1, ⟨1, 1⟩), (2, ⟨2, 2⟩)]).1 = 1 :=
  broadcast_sends_once_in_table_order (fun _ _ => none) 0 [(1, ⟨1, 1⟩), (2, ⟨2, 2⟩)]
    (by decide) (by decide)

/-- C2 (counterexample to the claim as stated): after members with senders
`(1,1)`, `(2,2)`, `(3,3)` are inserted in this order and the first one is
removed, the swap-removal leaves the table as `[(3,3), (2,2)]`, so a successful
broadcast sends to `(3,3)` before `(2,2)` — not in the insertion order
`[(2,2), (3,3)]` of the remaining members. -/
theorem broadcast_after_remove_not_insertion_order :
    Room.remove (Room.add (Room.add (Room.add [] 10 ⟨1, 1⟩) 20 ⟨2, 2⟩) 30 ⟨3, 3⟩) ⟨1, 1⟩ =
      some [(30, ⟨3, 3⟩), (20, ⟨2, 2⟩)] ∧
    (Room.broadcast (fun _ _ => none) 0 [(30, ⟨3, 3⟩), (20, ⟨2, 2⟩)]).2 = none ∧
    (Room.broadcast (fun _ _ => none) 0 [(30, ⟨3, 3⟩), (20, ⟨2, 2⟩)]).1 =
      [⟨3, 3⟩, ⟨2, 2⟩] ∧
    ([⟨3, 3⟩, ⟨2, 2⟩] : List Sender) ≠ [⟨2, 2⟩, ⟨3, 3⟩] := by
  decide

/-- C5: in both the room-level broadcast and the `Context` broadcast, a failing
send short-circuits the iteration: the first error is returned to the caller,
`send` was invoked on exactly the members up to and including the failing one in
iteration order, and no send is attempted for the members after it. -/
theorem broadcast_short_circuits_on_failure
    (f : Sender → Msg → Option Err) (m : Msg) (members : List Entry)
    (snapshot pre post : List Sender) (x : Sender) (e : Err)
    (hm : members.map Prod.snd = pre ++ x :: post)
    (hs : snapshot = pre ++ x :: post)
    (hpre : ∀ s ∈ pre, f s m = none)
    (hx : f x m = some e) :
    Room.broadcast f m members = (pre ++ [x], some e) ∧
    Context.broadcast f m snapshot = (pre ++ [x], some e) := by
  constructor
  · unfold Room.broadcast
    rw [hm]
    exact sendAll_break pre hpre hx
  · unfold Context.broadcast
    rw [hs]
    exact sendAll_break pre hpre hx

theorem broadcast_short_circuits_on_failure_witness :
    Room.broadcast (fun s _ => if s = ⟨2, 2⟩ then some 7 else none) 0
        [(1, ⟨1, 1⟩), (2, ⟨2, 2⟩), (3, ⟨3, 3⟩)] = ([⟨1, 1⟩, ⟨2, 2⟩], some 7) ∧
    Context.broadcast (fun s _ => if s = ⟨2, 2⟩ then some 7 else none) 0
        [⟨1, 1⟩, ⟨2, 2⟩, ⟨3, 3⟩] = ([⟨1, 1⟩, ⟨2, 2⟩], some 7) :=
  broadcast_short_circuits_on_failure (fun s _ => if s = ⟨2, 2⟩ then some 7 else none) 0
    [(1, ⟨1, 1⟩), (2, ⟨2, 2⟩), (3, ⟨3, 3⟩)] [⟨1, 1⟩, ⟨2, 2⟩, ⟨3, 3⟩]
    [⟨1, 1⟩] [⟨3, 3⟩] ⟨2, 2⟩ 7 (by decide) (by decide) (by decide) (by decide)

/-- C10: `remove` performs a swap-removal — the entry at the found position is
overwritten with the table's last entry and the last slot is popped — so the
resulting table is one entry shorter, a permutation of the table with the found
entry erased in place, and (whenever the found position is not the last) its
entry at that position is the table's previous last entry, not the next one
shifted down. -/
theorem remove_is_swap_removal (members m : List Entry) (s : Sender) (i : Nat)
    (hpos : position (fun e => e.2 == s) members = some i)
    (hrm : Room.remove members s = some m) :
    m = swapRemove members i ∧
    m.length = members.length - 1 ∧
    List.Perm m (members.eraseIdx i) ∧
    (i + 1 < members.length → m[i]? = members.getLast?) := by
  obtain ⟨j, hpj, hmj, hperm⟩ := remove_eq_some hrm
  rw [hpos] at hpj
  have hij : i = j := Option.some.inj hpj
  subst hij
  have hlen : i < members.length := position_lt_length hpos
  refine ⟨hmj, ?_, hperm, ?_⟩
  · rw [hperm.length_eq, List.length_eraseIdx, if_pos hlen]
  · intro hlt
    have hne : members ≠ [] := by
      intro hc
      subst hc
      simp at hlen
    have hg : members.getLast? = some (members.getLast hne) :=
      List.getLast?_eq_getLast _ hne
    rw [hmj]
    simp only [swapRemove, hg]
    rw [List.getElem?_dropLast]
    have hc : i < (members.set i (members.getLast hne)).length - 1 := by
      rw [List.length_set]
      omega
    rw [if_pos hc]
    exact List.getElem?_set_self hlen

theorem remove_is_swap_removal_witness :
    ([(30, ⟨3, 3⟩), (20, ⟨2, 2⟩)] : List Entry) =
        swapRemove [(10, ⟨1, 1⟩), (20, ⟨2, 2⟩), (30, ⟨3, 3⟩)] 0 ∧
    ([(30, ⟨3, 3⟩), (20, ⟨2, 2⟩)] : List Entry).length =
        ([(10, ⟨1, 1⟩), (20, ⟨2, 2⟩), (30, ⟨3, 3⟩)] : List Entry).length - 1 ∧
    List.Perm ([(30, ⟨3, 3⟩), (20, ⟨2, 2⟩)] : List Entry)
        (([(10, ⟨1, 1⟩), (20, ⟨2, 2⟩), (30, ⟨3, 3⟩)] : List Entry).eraseIdx 0) ∧
    (0 + 1 < ([(10, ⟨1, 1⟩), (20, ⟨2, 2⟩), (30, ⟨3, 3⟩)] : List Entry).length →
      ([(30, ⟨3, 3⟩), (20, ⟨2, 2⟩)] : List Entry)[0]? =
        ([(10, ⟨1, 1⟩), (20, ⟨2, 2⟩), (30, ⟨3, 3⟩)] : List Entry).getLast?) :=
  remove_is_swap_removal [(10, ⟨1, 1⟩), (20, ⟨2, 2⟩), (30, ⟨3, 3⟩)]
    [(30, ⟨3, 3⟩), (20, ⟨2, 2⟩)] ⟨1, 1⟩ 0 (by decide) (by decide)

/-! Counting lemmas for the room pool and the protocol invariant. -/

theorem count_sender_single (t s : Sender) :
    List.count t [s] = if t = s then 1 else 0 := by
  rw [List.count_singleton]
  by_cases h : t = s
  · simp [h]
  · have hb : (s == t) = false := by
      simpa using fun hc : s = t => h hc.symm
    simp [h, hb]

theorem senderCount_poolAdd (rooms : Rooms) (i : Nat) (g : Guest) (s : Sender)
    (j : Nat) (t : Sender) :
    senderCount (poolAdd rooms i g s) j t =
      senderCount rooms j t + (if j = i ∧ t = s then 1 else 0) := by
  unfold senderCount poolAdd setRoom Room.add
  by_cases hj : j = i
  · subst hj
    rw [if_pos rfl, List.map_append, List.count_append,
      show List.map Prod.snd [(g, s)] = [s] from rfl, count_sender_single]
    by_cases ht : t = s <;> simp [ht]
  · rw [if_neg hj]
    simp [hj]

theorem senderCount_poolRemove {rooms : Rooms} {i : Nat} {s : Sender}
    {rooms1 : Rooms} (h : poolRemove rooms i s = some rooms1) (j : Nat) (t : Sender) :
    senderCount rooms1 j t =
      senderCount rooms j t - (if j = i ∧ t = s then 1 else 0) := by
  unfold poolRemove at h
  cases hr : Room.remove (rooms i) s with
  | none => rw [hr] at h; simp at h
  | some m =>
    rw [hr] at h
    simp only [Option.map_some', Option.some.injEq] at h
    subst h
    unfold senderCount setRoom
    by_cases hj : j = i
    · subst hj
      rw [if_pos rfl]
      have hperm := remove_map_snd_perm hr
      rw [hperm.count_eq]
      by_cases ht : t = s
      · subst ht
        rw [List.count_erase_self]
        simp
      · rw [List.count_erase_of_ne ht]
        simp [ht]
    · rw [if_neg hj]
      simp [hj]

theorem keys_nodup_eq_of_mem {conns : List (Sender × Nat)}
    (hnd : (conns.map Prod.fst).Nodup) {s : Sender} {a b : Nat}
    (ha : (s, a) ∈ conns) (hb : (s, b) ∈ conns) : a = b := by
  induction conns with
  | nil => simp at ha
  | cons c tl ih =>
    rw [List.map_cons, List.nodup_cons] at hnd
    obtain ⟨h1, h2⟩ := hnd
    rcases List.mem_cons.mp ha with ha' | ha' <;> rcases List.mem_cons.mp hb with hb' | hb'
    · rw [← ha'] at hb'
      exact ((Prod.ext_iff.mp hb').2).symm
    · exfalso
      apply h1
      rw [← ha']
      exact List.mem_map.mpr ⟨(s, b), hb', rfl⟩
    · exfalso
      apply h1
      rw [← hb']
      exact List.mem_map.mpr ⟨(s, a), ha', rfl⟩
    · exact ih h2 ha' hb'

theorem replaceConn_map_fst (conns : List (Sender × Nat)) (s : Sender) (rid : Nat) :
    (replaceConn conns s rid).map Prod.fst = conns.map Prod.fst := by
  unfold replaceConn
  rw [List.map_map]
  refine List.map_congr_left fun p _ => ?_
  by_cases h : p.1 = s <;> simp [h]

theorem mem_replaceConn {conns : List (Sender × Nat)} {s : Sender} {rid : Nat}
    {p : Sender × Nat} (h : p ∈ replaceConn conns s rid) :
    (p.1 ≠ s ∧ p ∈ conns) ∨ (p = (s, rid) ∧ ∃ r0, (s, r0) ∈ conns) := by
  unfold replaceConn at h
  obtain ⟨q, hq, hpq⟩ := List.mem_map.mp h
  by_cases hqs : q.1 = s
  · right
    rw [if_pos hqs] at hpq
    refine ⟨hpq.symm, q.2, ?_⟩
    have : q = (s, q.2) := by
      cases q
      simp_all
    rwa [this] at hq
  · left
    rw [if_neg hqs] at hpq
    subst hpq
    exact ⟨hqs, hq⟩

theorem mem_removeConn {conns : List (Sender × Nat)} {s : Sender} {p : Sender × Nat}
    (h : p ∈ removeConn conns s) : p ∈ conns ∧ p.1 ≠ s := by
  unfold removeConn at h
  have := List.mem_filter.mp h
  simpa using this

theorem removeConn_map_fst_nodup {conns : List (Sender × Nat)} {s : Sender}
    (hnd : (conns.map Prod.fst).Nodup) :
    ((removeConn conns s).map Prod.fst).Nodup :=
  hnd.sublist ((List.filter_sublist _).map Prod.fst)

/-- Every reachable state satisfies the strengthened membership invariant. -/
theorem reachable_inv {st : ProtoState} (h : Reachable st) : Inv st := by
  induction h with
  | init =>
    refine ⟨by simp, by simp, ?_⟩
    intro s _ j
    simp [senderCount]
  | @connect st1 s g hr hfresh ih =>
    obtain ⟨ihnd, ihmem, ihfree⟩ := ih
    have hfree0 : ∀ j, senderCount _ j s = 0 := ihfree s hfresh
    refine ⟨?_, ?_, ?_⟩
    · rw [List.map_cons, List.nodup_cons]
      refine ⟨fun hc => ?_, ihnd⟩
      obtain ⟨p, hp, he⟩ := List.mem_map.mp hc
      exact hfresh p hp he
    · intro p hp
      rcases List.mem_cons.mp hp with hp' | hp'
      · subst hp'
        constructor
        · rw [senderCount_poolAdd]
          simp [hfree0 lobbyId]
        · intro j hj
          rw [senderCount_poolAdd]
          simp only at hj
          simp [hj, hfree0 j]
      · obtain ⟨hc1, hc2⟩ := ihmem p hp'
        have hps : p.1 ≠ s := hfresh p hp'
        constructor
        · rw [senderCount_poolAdd]
          simp [hps, hc1]
        · intro j hj
          rw [senderCount_poolAdd]
          simp [hps, hc2 j hj]
    · intro t ht j
      have hts : s ≠ t := ht (s, lobbyId) (List.mem_cons_self _ _)
      have htold : ∀ p ∈ st1.conns, p.1 ≠ t := fun p hp =>
        ht p (List.mem_cons_of_mem _ hp)
      rw [senderCount_poolAdd, if_neg fun hc : j = lobbyId ∧ t = s => hts hc.2.symm]
      simp [ihfree t htold j]
  | @relocate st1 rooms1 s rid dest g hr hconn hrm ih =>
    obtain ⟨ihnd, ihmem, ihfree⟩ := ih
    obtain ⟨hc1, hc2⟩ := ihmem (s, rid) hconn
    have hsub := senderCount_poolRemove hrm
    refine ⟨?_, ?_, ?_⟩
    · rw [replaceConn_map_fst]
      exact ihnd
    · intro p hp
      rcases mem_replaceConn hp with ⟨hps, hp'⟩ | ⟨hpd, _⟩
      · obtain ⟨hq1, hq2⟩ := ihmem p hp'
        constructor
        · rw [senderCount_poolAdd, hsub p.2 p.1]
          simp [hps, hq1]
        · intro j hj
          rw [senderCount_poolAdd, hsub j p.1]
          simp [hps, hq2 j hj]
      · subst hpd
        constructor
        · rw [senderCount_poolAdd, hsub dest s]
          by_cases hd : dest = rid
          · subst hd
            simp [hc1]
          · simp [hd, hc2 dest hd]
        · intro j hj
          simp only at hj
          rw [senderCount_poolAdd, hsub j s]
          by_cases hjr : j = rid
          · subst hjr
            simp [hj, hc1]
          · simp [hj, hjr, hc2 j hjr]
    · intro t ht j
      have hst : s ≠ t := by
        apply ht (s, dest)
        unfold replaceConn
        exact List.mem_map.mpr ⟨(s, rid), hconn, by simp⟩
      have htold : ∀ p ∈ st1.conns, p.1 ≠ t := by
        intro p hp
        by_cases hps : p.1 = s
        · rw [hps]
          exact hst
        · apply ht
          unfold replaceConn
          exact List.mem_map.mpr ⟨p, hp, by simp [hps]⟩
      rw [senderCount_poolAdd, hsub j t,
        if_neg fun hc : j = rid ∧ t = s => hst hc.2.symm,
        if_neg fun hc : j = dest ∧ t = s => hst hc.2.symm]
      simp [ihfree t htold j]
  | @disconnect st1 rooms1 s rid hr hconn hrm ih =>
    obtain ⟨ihnd, ihmem, ihfree⟩ := ih
    obtain ⟨hc1, hc2⟩ := ihmem (s, rid) hconn
    have hsub := senderCount_poolRemove hrm
    refine ⟨removeConn_map_fst_nodup ihnd, ?_, ?_⟩
    · intro p hp
      obtain ⟨hp', hps⟩ := mem_removeConn hp
      obtain ⟨hq1, hq2⟩ := ihmem p hp'
      constructor
      · rw [hsub p.2 p.1]
        simp [hps, hq1]
      · intro j hj
        rw [hsub j p.1]
        simp [hps, hq2 j hj]
    · intro t ht j
      by_cases hts : t = s
      · subst hts
        rw [hsub j t]
        by_cases hjr : j = rid
        · subst hjr
          simp [hc1]
        · simp [hjr, hc2 j hjr]
      · have htold : ∀ p ∈ st1.conns, p.1 ≠ t := by
          intro p hp
          by_cases hps : p.1 = s
          · rw [hps]
            intro hc
            exact hts hc.symm
          · apply ht
            unfold removeConn
            refine List.mem_filter.mpr ⟨hp, ?_⟩
            simpa using hps
        rw [hsub j t, if_neg fun hc : j = rid ∧ t = s => hts hc.2]
        simp [ihfree t htold j]

/-- C3: in every state reachable by the protocol — initial lobby insertion on
connect, relocation's remove-then-add sequence, and removal on close — every
room's membership table contains at most one entry per `(token, connection_id)`
sender pair: no two entries of the same room share a sender. -/
theorem reachable_no_duplicate_senders {st : ProtoState} (h : Reachable st)
    (j : Nat) : ((st.rooms j).map Prod.snd).Nodup := by
  obtain ⟨hnd, hmem, hfree⟩ := reachable_inv h
  rw [List.nodup_iff_count_le_one]
  intro s
  have hcnt : List.count s ((st.rooms j).map Prod.snd) = senderCount st.rooms j s := rfl
  by_cases hc : ∀ p ∈ st.conns, p.1 ≠ s
  · rw [hcnt, hfree s hc j]
    exact Nat.zero_le 1
  · push_neg at hc
    obtain ⟨p, hp, hps⟩ := hc
    obtain ⟨h1, h2⟩ := hmem p hp
    rw [hcnt, ← hps]
    by_cases hj : j = p.2
    · rw [hj, h1]
    · rw [h2 j hj]
      exact Nat.zero_le 1

theorem reachable_no_duplicate_senders_witness :
    (((poolAdd (fun _ => []) lobbyId default ⟨1, 1⟩) lobbyId).map Prod.snd).Nodup :=
  reachable_no_duplicate_senders
    (Reachable.connect ⟨1, 1⟩ default Reachable.init (by simp)) lobbyId

/-! Unfolding equations for the relocation loop. -/

theorem relocate_none (onJoin : Nat → Nat → Except Err (Option Relocation))
    (s : Sender) (fuel k : Nat) (rooms : Rooms) (cur : Nat) :
    Handler.relocate onJoin s fuel k rooms cur none = ([], rooms, Outcome.ok cur) := by
  cases fuel <;> rfl

theorem relocate_zero_some (onJoin : Nat → Nat → Except Err (Option Relocation))
    (s : Sender) (k : Nat) (rooms : Rooms) (cur : Nat) (rel : Relocation) :
    Handler.relocate onJoin s 0 k rooms cur (some rel) = ([], rooms, Outcome.fuelOut) :=
  rfl

theorem relocate_succ_panic {onJoin : Nat → Nat → Except Err (Option Relocation)}
    {s : Sender} {fuel k : Nat} {rooms : Rooms} {cur : Nat} {rel : Relocation}
    (hrm : poolRemove rooms cur s = none) :
    Handler.relocate onJoin s (fuel + 1) k rooms cur (some rel) =
      ([Ev.leave cur none], rooms, Outcome.panicked) := by
  simp only [Handler.relocate, hrm]

theorem relocate_succ_err {onJoin : Nat → Nat → Except Err (Option Relocation)}
    {s : Sender} {fuel k : Nat} {rooms rooms1 : Rooms} {cur : Nat} {rel : Relocation}
    {e : Err} (hrm : poolRemove rooms cur s = some rooms1)
    (hoj : onJoin k rel.room = Except.error e) :
    Handler.relocate onJoin s (fuel + 1) k rooms cur (some rel) =
      (relocBlock cur rel.room, poolAdd rooms1 rel.room rel.identity s,
        Outcome.err e rel.room) := by
  simp only [Handler.relocate, hrm, hoj, relocBlock]

theorem relocate_succ_ok {onJoin : Nat → Nat → Except Err (Option Relocation)}
    {s : Sender} {fuel k : Nat} {rooms rooms1 : Rooms} {cur : Nat} {rel : Relocation}
    {r' : Option Relocation} (hrm : poolRemove rooms cur s = some rooms1)
    (hoj : onJoin k rel.room = Except.ok r') :
    Handler.relocate onJoin s (fuel + 1) k rooms cur (some rel) =
      (relocBlock cur rel.room ++
        (Handler.relocate onJoin s fuel (k + 1)
          (poolAdd rooms1 rel.room rel.identity s) rel.room r').1,
       (Handler.relocate onJoin s fuel (k + 1)
          (poolAdd rooms1 rel.room rel.identity s) rel.room r').2.1,
       (Handler.relocate onJoin s fuel (k + 1)
          (poolAdd rooms1 rel.room rel.identity s) rel.room r').2.2) := by
  simp only [Handler.relocate, hrm, hoj, relocBlock]

/-- C1: every relocation returned by a handler callback — including one whose
destination equals the current room — is applied as the exact sequence
`on_leave` (no reason), removal from the old room, insertion into the new room,
`on_join` of the new room; if `on_join` yields another relocation the same
block repeats, so the whole trace is the concatenation of such blocks along a
chain of rooms starting at the first destination, and a normal exit (a callback
returned `Ok(None)`) leaves the adapter in the last room of the chain. -/
theorem relocate_applies_blocks_in_order
    (onJoin : Nat → Nat → Except Err (Option Relocation)) (s : Sender)
    (fuel k : Nat) (rooms : Rooms) (cur : Nat) (r : Option Relocation)
    (hnp : (Handler.relocate onJoin s fuel k rooms cur r).2.2 ≠ Outcome.panicked)
    (hnf : (Handler.relocate onJoin s fuel k rooms cur r).2.2 ≠ Outcome.fuelOut) :
    ∃ chain : List Nat,
      (Handler.relocate onJoin s fuel k rooms cur r).1 = relocBlocks cur chain ∧
      (r = none → chain = []) ∧
      (∀ rel : Relocation, r = some rel → chain.head? = some rel.room) ∧
      ∀ c : Nat, (Handler.relocate onJoin s fuel k rooms cur r).2.2 = Outcome.ok c →
        c = chain.getLastD cur := by
  induction fuel generalizing k rooms cur r with
  | zero =>
    cases r with
    | none =>
      refine ⟨[], ?_, fun _ => rfl, ?_, ?_⟩
      · rw [relocate_none]
        rfl
      · intro rel h
        cases h
      · intro c hc
        rw [relocate_none] at hc
        cases hc
        rfl
    | some rel =>
      exfalso
      apply hnf
      rw [relocate_zero_some]
  | succ fuel ih =>
    cases r with
    | none =>
      refine ⟨[], ?_, fun _ => rfl, ?_, ?_⟩
      · rw [relocate_none]
        rfl
      · intro rel h
        cases h
      · intro c hc
        rw [relocate_none] at hc
        cases hc
        rfl
    | some rel =>
      cases hrm : poolRemove rooms cur s with
      | none =>
        exfalso
        apply hnp
        rw [relocate_succ_panic hrm]
      | some rooms1 =>
        cases hoj : onJoin k rel.room with
        | error e =>
          refine ⟨[rel.room], ?_, ?_, ?_, ?_⟩
          · rw [relocate_succ_err hrm hoj]
            simp [relocBlocks]
          · intro h
            cases h
          · intro rel' h
            cases h
            rfl
          · intro c hc
            rw [relocate_succ_err hrm hoj] at hc
            cases hc
        | ok r' =>
          rw [relocate_succ_ok hrm hoj] at hnp hnf
          obtain ⟨chain', htr, _, _, hok'⟩ :=
            ih (k + 1) (poolAdd rooms1 rel.room rel.identity s) rel.room r' hnp hnf
          refine ⟨rel.room :: chain', ?_, ?_, ?_, ?_⟩
          · rw [relocate_succ_ok hrm hoj]
            show relocBlock cur rel.room ++ _ = relocBlocks cur (rel.room :: chain')
            rw [htr]
            rfl
          · intro h
            cases h
          · intro rel' h
            cases h
            rfl
          · intro c hc
            rw [relocate_succ_ok hrm hoj] at hc
            rw [List.getLastD_cons]
            exact hok' c hc

theorem relocate_applies_blocks_in_order_witness :
    ∃ chain : List Nat,
      (Handler.relocate (fun _ _ => Except.ok none) ⟨1, 1⟩ 2 0
          (fun _ => [(5, ⟨1, 1⟩)]) 0 (some ⟨0, 9⟩)).1 = relocBlocks 0 chain ∧
      ((some ⟨0, 9⟩ : Option Relocation) = none → chain = []) ∧
      (∀ rel : Relocation, (some ⟨0, 9⟩ : Option Relocation) = some rel →
        chain.head? = some rel.room) ∧
      ∀ c : Nat,
        (Handler.relocate (fun _ _ => Except.ok none) ⟨1, 1⟩ 2 0
            (fun _ => [(5, ⟨1, 1⟩)]) 0 (some ⟨0, 9⟩)).2.2 = Outcome.ok c →
          c = chain.getLastD 0 :=
  relocate_applies_blocks_in_order (fun _ _ => Except.ok none) ⟨1, 1⟩ 2 0
    (fun _ => [(5, ⟨1, 1⟩)]) 0 (some ⟨0, 9⟩) (by decide) (by decide)

/-- C4: if the destination room's `on_join` returns an error during the
relocation loop, the member is left in the destination room (it was inserted
before `on_join` fired), the loop performs no further leave/remove steps — the
trace ends with that room's `join` event — and the error surfaces as the loop's
outcome, upon which the external server ceases dispatch for the connection. -/
theorem onjoin_error_keeps_member_in_destination
    (onJoin : Nat → Nat → Except Err (Option Relocation)) (s : Sender)
    (fuel k : Nat) (rooms : Rooms) (cur : Nat) (r : Option Relocation)
    (e : Err) (d : Nat)
    (hout : (Handler.relocate onJoin s fuel k rooms cur r).2.2 = Outcome.err e d) :
    s ∈ (((Handler.relocate onJoin s fuel k rooms cur r).2.1) d).map Prod.snd ∧
    ((Handler.relocate onJoin s fuel k rooms cur r).1).getLast? =
      some (Ev.joinEv d) ∧
    ceasesDispatch ((Handler.relocate onJoin s fuel k rooms cur r).2.2) = true := by
  induction fuel generalizing k rooms cur r with
  | zero =>
    cases r with
    | none =>
      rw [relocate_none] at hout
      cases hout
    | some rel =>
      rw [relocate_zero_some] at hout
      cases hout
  | succ fuel ih =>
    cases r with
    | none =>
      rw [relocate_none] at hout
      cases hout
    | some rel =>
      cases hrm : poolRemove rooms cur s with
      | none =>
        rw [relocate_succ_panic hrm] at hout
        cases hout
      | some rooms1 =>
        cases hoj : onJoin k rel.room with
        | error e' =>
          rw [relocate_succ_err hrm hoj] at hout
          obtain ⟨he, hd⟩ : e' = e ∧ rel.room = d := by
            cases hout
            exact ⟨rfl, rfl⟩
          subst he
          subst hd
          rw [relocate_succ_err hrm hoj]
          refine ⟨?_, rfl, rfl⟩
          show s ∈ ((poolAdd rooms1 rel.room rel.identity s) rel.room).map Prod.snd
          unfold poolAdd setRoom Room.add
          simp
        | ok r' =>
          rw [relocate_succ_ok hrm hoj] at hout
          obtain ⟨h1, h2, h3⟩ :=
            ih (k + 1) (poolAdd rooms1 rel.room rel.identity s) rel.room r' hout
          rw [relocate_succ_ok hrm hoj]
          refine ⟨h1, ?_, h3⟩
          have hne :
              (Handler.relocate onJoin s fuel (k + 1)
                (poolAdd rooms1 rel.room rel.identity s) rel.room r').1 ≠ [] := by
            intro hc
            rw [hc] at h2
            cases h2
          show (relocBlock cur rel.room ++ _).getLast? = _
          rw [List.getLast?_append_of_ne_nil _ hne]
          exact h2

theorem onjoin_error_keeps_member_in_destination_witness :
    ⟨1, 1⟩ ∈ (((Handler.relocate (fun _ _ => Except.error 3) ⟨1, 1⟩ 1 0
        (fun _ => [(5, ⟨1, 1⟩)]) 0 (some ⟨1, 7⟩)).2.1) 1).map Prod.snd ∧
    ((Handler.relocate (fun _ _ => Except.error 3) ⟨1, 1⟩ 1 0
        (fun _ => [(5, ⟨1, 1⟩)]) 0 (some ⟨1, 7⟩)).1).getLast? =
      some (Ev.joinEv 1) ∧
    ceasesDispatch ((Handler.relocate (fun _ _ => Except.error 3) ⟨1, 1⟩ 1 0
        (fun _ => [(5, ⟨1, 1⟩)]) 0 (some ⟨1, 7⟩)).2.2) = true :=
  onjoin_error_keeps_member_in_destination (fun _ _ => Except.error 3) ⟨1, 1⟩ 1 0
    (fun _ => [(5, ⟨1, 1⟩)]) 0 (some ⟨1, 7⟩) 3 1 (by decide)

/-! Lemmas for the close path: identity mutation cannot affect removal. -/

theorem swapRemove_zero_head_irrelevant (a b : α) (l : List α) :
    swapRemove (a :: l) 0 = swapRemove (b :: l) 0 := by
  cases l with
  | nil => rfl
  | cons c t =>
    cases hg : (c :: t).getLast? with
    | none => simp at hg
    | some z =>
      have hga : (a :: c :: t).getLast? = some z := by
        rw [List.getLast?_cons_cons, hg]
      have hgb : (b :: c :: t).getLast? = some z := by
        rw [List.getLast?_cons_cons, hg]
      simp only [swapRemove, hga, hgb]
      rfl

theorem remove_cons_of_ne {e : Entry} {l : List Entry} {s : Sender}
    (he : (e.2 == s) = false) :
    Room.remove (e :: l) s = (Room.remove l s).map (e :: ·) := by
  unfold Room.remove
  have hpos : position (fun x => x.2 == s) (e :: l) =
      (position (fun x => x.2 == s) l).map (· + 1) := by
    simp [position, he]
  rw [hpos]
  cases hp : position (fun x => x.2 == s) l with
  | none => rfl
  | some i =>
    simp only [Option.map_some']
    congr 1
    apply swapRemove_cons_succ
    intro hc
    subst hc
    simp [position] at hp

theorem remove_mutateIdentity (l : List Entry) (s : Sender) (f : Guest → Guest) :
    Room.remove (mutateIdentity l s f) s = Room.remove l s := by
  induction l with
  | nil => rfl
  | cons e rest ih =>
    by_cases he : e.2 = s
    · unfold mutateIdentity
      rw [if_pos he]
      unfold Room.remove
      have h1 : position (fun x => x.2 == s) ((f e.1, e.2) :: rest) = some 0 := by
        simp [position, he]
      have h2 : position (fun x => x.2 == s) (e :: rest) = some 0 := by
        simp [position, he]
      rw [h1, h2]
      simp only [Option.map_some']
      congr 1
      exact swapRemove_zero_head_irrelevant _ _ _
    · unfold mutateIdentity
      rw [if_neg he]
      have heb : (e.2 == s) = false := by simpa using he
      rw [remove_cons_of_ne heb, remove_cons_of_ne heb, ih]

/-- C6: on connection close the adapter first fires the current room's
`on_leave` with `Some((code, reason))` and only afterwards removes the sender's
entry from that room's membership table; `on_leave` has no error channel in the
source (it returns unit, so nothing can propagate), and the removal happens
regardless of what the leave callback did to the caller's identity — the
resulting pool equals plain removal from the pre-close state. -/
theorem onclose_leave_then_remove (leaveUpd : Guest → Guest) (rooms : Rooms)
    (cur : Nat) (s : Sender) (code reasonStr : Nat) :
    (Handler.onClose leaveUpd rooms cur s code reasonStr).1 =
      [Ev.leave cur (some (code, reasonStr)), Ev.removeEv cur] ∧
    (Handler.onClose leaveUpd rooms cur s code reasonStr).2 =
      poolRemove rooms cur s := by
  refine ⟨rfl, ?_⟩
  show poolRemove (setRoom rooms cur (mutateIdentity (rooms cur) s leaveUpd)) cur s =
    poolRemove rooms cur s
  unfold poolRemove
  have happ : setRoom rooms cur (mutateIdentity (rooms cur) s leaveUpd) cur =
      mutateIdentity (rooms cur) s leaveUpd := by
    unfold setRoom
    rw [if_pos rfl]
  rw [happ, remove_mutateIdentity]
  cases hr : Room.remove (rooms cur) s with
  | none => rfl
  | some m =>
    simp only [Option.map_some', Option.some.injEq]
    funext j
    by_cases hj : j = cur
    · simp [setRoom, hj]
    · simp [setRoom, hj]

/-- C7: the three fatal branches — identity downcast mismatch in `add`, removal
of an absent member in `remove`, and identity lookup for a caller not in the
room — abort the process (modelled by `none`) exactly when their respective
conditions hold; moreover a relocation built by `Relocation::new` always carries
a box with the destination room's tag, and a sender that is present in the
membership table is always removable and has an identity, so under the spec's
invariants none of the three branches is reachable. -/
theorem fatal_branches_iff (roomTag : TypeTag) (members : List Entry)
    (s me : Sender) (b : Erased) :
    (RoomAny.add roomTag members s b = none ↔ b.tag ≠ roomTag) ∧
    (Room.remove members s = none ↔ ∀ e ∈ members, e.2 ≠ s) ∧
    (Context.identity members me = none ↔ ∀ e ∈ members, e.2 ≠ me) ∧
    (∀ g : Guest, RoomAny.add roomTag members s ((RelocationE.new roomTag g).box) =
      some (Room.add members g s)) ∧
    (s ∈ members.map Prod.snd →
      (Room.remove members s).isSome = true ∧
      (Context.identity members s).isSome = true) := by
  refine ⟨?_, remove_eq_none_iff, ?_, ?_, ?_⟩
  · unfold RoomAny.add downcastGuest
    by_cases h : b.tag = roomTag <;> simp [h]
  · unfold Context.identity
    rw [Option.map_eq_none', List.find?_eq_none]
    constructor
    · intro h e he
      simpa using h e he
    · intro h e he
      simpa using h e he
  · intro g
    unfold RoomAny.add downcastGuest RelocationE.new
    simp
  · intro hs
    obtain ⟨e, he, hes⟩ := List.mem_map.mp hs
    constructor
    · cases hr : Room.remove members s with
      | some m => rfl
      | none =>
        exfalso
        rw [remove_eq_none_iff] at hr
        exact hr e he hes
    · show ((members.find? fun x => x.2 == s).map Prod.fst).isSome = true
      cases hf : members.find? fun x => x.2 == s with
      | some x => rfl
      | none =>
        exfalso
        rw [List.find?_eq_none] at hf
        exact hf e he (by simp [hes])

theorem fatal_branches_iff_witness :
    (RoomAny.add 1 [(5, ⟨1, 1⟩)] ⟨2, 2⟩ ⟨2, 9⟩ = none ↔ (2 : TypeTag) ≠ 1) ∧
    (Room.remove [(5, ⟨1, 1⟩)] ⟨2, 2⟩ = none ↔
      ∀ e ∈ ([(5, ⟨1, 1⟩)] : List Entry), e.2 ≠ ⟨2, 2⟩) ∧
    (Context.identity [(5, ⟨1, 1⟩)] ⟨3, 3⟩ = none ↔
      ∀ e ∈ ([(5, ⟨1, 1⟩)] : List Entry), e.2 ≠ ⟨3, 3⟩) ∧
    (∀ g : Guest, RoomAny.add 1 [(5, ⟨1, 1⟩)] ⟨2, 2⟩ ((RelocationE.new 1 g).box) =
      some (Room.add [(5, ⟨1, 1⟩)] g ⟨2, 2⟩)) ∧
    (⟨2, 2⟩ ∈ ([(5, ⟨1, 1⟩)] : List Entry).map Prod.snd →
      (Room.remove [(5, ⟨1, 1⟩)] ⟨2, 2⟩).isSome = true ∧
      (Context.identity [(5, ⟨1, 1⟩)] ⟨2, 2⟩).isSome = true) :=
  fatal_branches_iff 1 [(5, ⟨1, 1⟩)] ⟨2, 2⟩ ⟨3, 3⟩ ⟨2, 9⟩

/-- C8: for every accepted connection, the listener's closure inserts the sender
into the lobby's membership table with the default-constructed guest value; the
adapter it then returns has the lobby as its current room and carries the
accepted sender; and no `on_join` event is produced for this initial insertion. -/
theorem accept_adds_to_lobby_no_join (rooms : Rooms) (s : Sender) :
    (acceptConnection rooms s).2.1 lobbyId = Room.add (rooms lobbyId) default s ∧
    (∀ j, j ≠ lobbyId → (acceptConnection rooms s).2.1 j = rooms j) ∧
    (acceptConnection rooms s).2.2 = ⟨s, lobbyId⟩ ∧
    ∀ j, Ev.joinEv j ∉ (acceptConnection rooms s).1 := by
  refine ⟨?_, ?_, rfl, ?_⟩
  · show poolAdd rooms lobbyId default s lobbyId = _
    unfold poolAdd setRoom
    rw [if_pos rfl]
  · intro j hj
    show poolAdd rooms lobbyId default s j = rooms j
    unfold poolAdd setRoom
    rw [if_neg hj]
  · intro j hc
    simp [acceptConnection] at hc

theorem accept_adds_to_lobby_no_join_witness :
    (acceptConnection (fun _ => []) ⟨4, 7⟩).2.1 lobbyId =
      Room.add ((fun _ => ([] : List Entry)) lobbyId) default ⟨4, 7⟩ ∧
    (∀ j, j ≠ lobbyId → (acceptConnection (fun _ => []) ⟨4, 7⟩).2.1 j =
      (fun _ => ([] : List Entry)) j) ∧
    (acceptConnection (fun _ => []) ⟨4, 7⟩).2.2 = ⟨⟨4, 7⟩, lobbyId⟩ ∧
    ∀ j, Ev.joinEv j ∉ (acceptConnection (fun _ => []) ⟨4, 7⟩).1 :=
  accept_adds_to_lobby_no_join (fun _ => []) ⟨4, 7⟩

/-- C9: upgrading a weak room reference yields a strong reference iff at least
one strong reference to the underlying cell survives at that moment; the
upgraded reference denotes the very same cell, hence is pointer-equal
(`Arc::ptr_eq`) to the original strong reference, and upgrading a dangling weak
reference returns `none` as a normal, non-erroneous outcome. -/
theorem upgrade_iff_strong_refs (h : ArcHeap) (cell : Nat) :
    ((RoomRefWeak.upgrade h cell).isSome = true ↔ 0 < h.strongCount cell) ∧
    (∀ c, RoomRefWeak.upgrade h cell = some c → RoomRef.ptrEq c cell = true) ∧
    (h.strongCount cell = 0 → RoomRefWeak.upgrade h cell = none) := by
  unfold RoomRefWeak.upgrade
  refine ⟨?_, ?_, ?_⟩
  · by_cases hp : 0 < h.strongCount cell <;> simp [hp]
  · intro c hc
    by_cases hp : 0 < h.strongCount cell
    · rw [if_pos hp] at hc
      cases hc
      simp [RoomRef.ptrEq]
    · rw [if_neg hp] at hc
      cases hc
  · intro h0
    rw [if_neg]
    omega

theorem upgrade_iff_strong_refs_witness :
    ((RoomRefWeak.upgrade ⟨fun _ => 2⟩ 3).isSome = true ↔
      0 < ArcHeap.strongCount ⟨fun _ => 2⟩ 3) ∧
    (∀ c, RoomRefWeak.upgrade ⟨fun _ => 2⟩ 3 = some c →
      RoomRef.ptrEq c 3 = true) ∧
    (ArcHeap.strongCount ⟨fun _ => 2⟩ 3 = 0 →
      RoomRefWeak.upgrade ⟨fun _ => 2⟩ 3 = none) :=
  upgrade_iff_strong_refs ⟨fun _ => 2⟩ 3

end WsHotel
